import Mathlib

/-!
Verification of the register sampling and unit-conversion engine of the
`ryzen-reader` library (`src/lib.rs`), as a shallow embedding.

Modelling conventions:
* `f64` arithmetic is embedded as exact rational arithmetic (`ℚ`); the
  floating-point values produced by the code are `2^-n` scaling factors,
  products and differences thereof.
* File I/O is externalised: raw MSR register reads appear as oracle
  functions `Nat → MsrValue → Except Error Nat` (one oracle per sampling
  pass, indexed by core position), `Core::open` as an oracle
  `Nat → Except Error Core`, and the per-core MSR device as a byte-addressed
  `FileState` for the seek/read-8-bytes/little-endian claim.
* `str::from_utf8` and `str::trim` are modelled on the ASCII fragment
  (every byte `< 0x80`): a buffer containing a byte `≥ 0x80` is mapped to
  `InvalidPackage`.  The topology attribute is ASCII decimal text, so all
  behaviour the specification describes lives in this fragment.
-/

namespace RyzenReader

/-- `AMD_TIME_UNIT_MASK` from the source: bits 16–19. -/
def AMD_TIME_UNIT_MASK : Nat := 0xF0000

/-- `AMD_ENERGY_UNIT_MASK` from the source: bits 8–12. -/
def AMD_ENERGY_UNIT_MASK : Nat := 0x1F00

/-- `AMD_POWER_UNIT_MASK` from the source: bits 0–3. -/
def AMD_POWER_UNIT_MASK : Nat := 0xF

/-- `MAX_CPUS` from the source: the hard enumeration ceiling. -/
def MAX_CPUS : Nat := 1024

/-- The error enum of the library.  The payload of the generic I/O variant
(`std::io::Error` in the source) is abstracted to a numeric code. -/
inductive Error where
  | PermissionDenied
  | CoreNotFound
  | Io (code : Nat)
  | NoCores
  | InvalidPackage
  deriving DecidableEq

deriving instance DecidableEq for Except

/-- The `MsrValue` register-address enum of the source. -/
inductive MsrValue where
  | PowerUnit
  | CoreEnergy
  | PackageEnergy
  deriving DecidableEq

/-- The `repr(u64)` discriminants of `MsrValue`: the three hardware register
addresses. -/
def MsrValue.addr : MsrValue → Nat
  | .PowerUnit => 0xC0010299
  | .CoreEnergy => 0xC001029A
  | .PackageEnergy => 0xC001029B

/-- A `Core` as far as the pure data model is concerned: its package id.
(The file handle is externalised into oracles / `FileState`.) -/
structure Core where
  package : Nat
  deriving DecidableEq

/-! ### The MSR register file: seek + 8-byte little-endian read (`Core::read`) -/

/-- The MSR device file of one core: a byte at every absolute offset, plus
the current seek position. -/
structure FileState where
  data : Nat → Nat
  pos : Nat

/-- `u64::from_le_bytes`: interpret a byte list little-endian, first byte
least significant. -/
def u64FromLeBytes : List Nat → Nat
  | [] => 0
  | b :: bs => b + 256 * u64FromLeBytes bs

/-- `Seek::seek(SeekFrom::Start(off))`: set the absolute position. -/
def FileState.seekStart (s : FileState) (off : Nat) : FileState :=
  { s with pos := off }

/-- Read `n` bytes at the current position, advancing it. -/
def FileState.readBytes (s : FileState) (n : Nat) : List Nat × FileState :=
  ((List.range n).map fun k => s.data (s.pos + k), { s with pos := s.pos + n })

/-- The body of `Core::read`, generic in the register address (the source
casts the `MsrValue` to `u64`): seek to the address, read 8 bytes, decode
little-endian. -/
def Core.readAt (s : FileState) (addr : Nat) : Nat × FileState :=
  let s1 := s.seekStart addr
  let br := s1.readBytes 8
  (u64FromLeBytes br.1, br.2)

/-- `Core::read(value)`: `Core.readAt` at the register's address. -/
def Core.readMsr (s : FileState) (v : MsrValue) : Nat × FileState :=
  Core.readAt s v.addr

/-! ### Parsing the topology attribute (`Core::open`) -/

/-- ASCII whitespace, the ASCII fragment of Rust `char::is_whitespace`
(space and the five control characters 0x09–0x0D). -/
def isWsByte (b : Nat) : Bool := b == 0x20 || (0x09 ≤ b && b ≤ 0x0D)

/-- ASCII decimal digit. -/
def isDigitByte (b : Nat) : Bool := 0x30 ≤ b && b ≤ 0x39

/-- `str::trim_end_matches('\u{0}')`: drop every trailing NUL byte. -/
def trimEndNul (l : List Nat) : List Nat :=
  (l.reverse.dropWhile (· == 0)).reverse

/-- `str::trim`: drop leading and trailing whitespace. -/
def trimWsBytes (l : List Nat) : List Nat :=
  (((l.dropWhile isWsByte).reverse.dropWhile isWsByte)).reverse

/-- The value of a decimal digit string. -/
def digitsToNat (l : List Nat) : Nat :=
  l.foldl (fun acc b => acc * 10 + (b - 0x30)) 0

/-- Drop an optional leading plus sign (`u32::from_str` accepts one). -/
def dropSign : List Nat → List Nat
  | 0x2B :: rest => rest
  | l => l

/-- `u32::from_str`: an optional leading plus sign, then one or more ASCII
digits, value below `2^32`. -/
def parseU32 (l : List Nat) : Option Nat :=
  if dropSign l ≠ [] ∧ (dropSign l).all isDigitByte = true ∧ digitsToNat (dropSign l) < 2 ^ 32
  then some (digitsToNat (dropSign l))
  else none

/-- The 4-byte window `Core::open` actually parses: `read` fills a
zero-initialised `[0; 4]` buffer, so the buffer holds the first (up to) 4
bytes of the content followed by NUL padding. -/
def bufferBytes (content : List Nat) : List Nat :=
  content.take 4 ++ List.replicate (4 - content.length) 0

/-- The parse pipeline of `Core::open` applied to a byte string: UTF-8
decode (modelled on the ASCII fragment, see the module comment), trim
trailing NULs, trim whitespace, parse as `u32`; every parse failure is
`InvalidPackage`. -/
def parseTrimmed (data : List Nat) : Except Error Nat :=
  if data.all (· < 0x80) then
    match parseU32 (trimWsBytes (trimEndNul data)) with
    | some v => Except.ok v
    | none => Except.error Error.InvalidPackage
  else Except.error Error.InvalidPackage

/-- The package-id parse performed by `Core::open` on the topology
attribute content: the pipeline applied to the 4-byte read buffer. -/
def Core.parsePackage (content : List Nat) : Except Error Nat :=
  parseTrimmed (bufferBytes content)

/-- Following the spec's words, for comparison with `Core.parsePackage`:
parse the topology attribute *content itself* as an integer after trimming
trailing NUL padding and whitespace. -/
def specParsePackage (content : List Nat) : Except Error Nat :=
  parseTrimmed content

/-! ### Power unit decoding (`CpuInfo::new`, lines 174–187) -/

/-- The three decoded scaling factors. -/
structure PowerUnits where
  time_unit : ℚ
  energy_unit : ℚ
  power_unit : ℚ
  deriving DecidableEq

/-- `(units & AMD_TIME_UNIT_MASK) >> 16`. -/
def timeExp (v : Nat) : Nat := (v &&& AMD_TIME_UNIT_MASK) >>> 16

/-- `(units & AMD_ENERGY_UNIT_MASK) >> 8`. -/
def energyExp (v : Nat) : Nat := (v &&& AMD_ENERGY_UNIT_MASK) >>> 8

/-- `units & AMD_POWER_UNIT_MASK`. -/
def powerExp (v : Nat) : Nat := v &&& AMD_POWER_UNIT_MASK

/-- The unit decode of `CpuInfo::new`: each unit is `0.5.powi(exponent)`,
i.e. `(1/2)^exponent`. -/
def decodeUnits (v : Nat) : PowerUnits :=
  { time_unit := (1 / 2 : ℚ) ^ timeExp v
    energy_unit := (1 / 2 : ℚ) ^ energyExp v
    power_unit := (1 / 2 : ℚ) ^ powerExp v }

/-! ### Engine construction (`CpuInfo::new`, lines 159–172) -/

/-- The engine: the ordered cores and the decoded units. -/
structure CpuInfo where
  cores : List Core
  units : PowerUnits

/-- The enumeration loop of `CpuInfo::new`, with `Core::open` as the oracle
`op`: starting at ordinal `i` with `fuel` ordinals left to try, collect
cores until the first `CoreNotFound` (benign stop), propagating any other
error. -/
def collectFrom (op : Nat → Except Error Core) : Nat → Nat → Except Error (List Core)
  | _, 0 => Except.ok []
  | i, fuel + 1 =>
    match op i with
    | Except.ok c =>
      match collectFrom op (i + 1) fuel with
      | Except.ok cs => Except.ok (c :: cs)
      | Except.error e => Except.error e
    | Except.error Error.CoreNotFound => Except.ok []
    | Except.error e => Except.error e

/-- The handle-enumeration stage of `CpuInfo::new`: run the loop over
ordinals `0..MAX_CPUS` and fail with `NoCores` if nothing was collected. -/
def CpuInfo.newCores (op : Nat → Except Error Core) : Except Error (List Core) :=
  match collectFrom op 0 MAX_CPUS with
  | Except.ok [] => Except.error Error.NoCores
  | Except.ok cs => Except.ok cs
  | Except.error e => Except.error e

/-! ### Sampling (`CpuInfo::read` / `CpuInfo::read_raw`) -/

/-- One output entry (`CorePower` in the source). -/
structure CorePower where
  core_power : ℚ
  package_power : ℚ
  package : Nat
  deriving DecidableEq

/-- A snapshot (`CpuPower` in the source). -/
structure CpuPower where
  cores : List CorePower
  deriving DecidableEq

/-- The body of `CpuInfo::read_raw` with the register reads as the oracle
`rd` (core position, register) and `i` the position of the first core in
`cs`: for each core read `CoreEnergy` then `PackageEnergy`, scale both by
the energy unit, and carry the core's package id; the first failure aborts
the whole pass. -/
def readRawAux (eu : ℚ) (rd : Nat → MsrValue → Except Error Nat) :
    Nat → List Core → Except Error (List CorePower)
  | _, [] => Except.ok []
  | i, c :: cs =>
    match rd i MsrValue.CoreEnergy with
    | Except.error e => Except.error e
    | Except.ok ce =>
      match rd i MsrValue.PackageEnergy with
      | Except.error e => Except.error e
      | Except.ok pe =>
        match readRawAux eu rd (i + 1) cs with
        | Except.error e => Except.error e
        | Except.ok rest =>
          Except.ok ({ core_power := (ce : ℚ) * eu
                       package_power := (pe : ℚ) * eu
                       package := c.package } :: rest)

/-- `CpuInfo::read_raw`. -/
def CpuInfo.read_raw (info : CpuInfo) (rd : Nat → MsrValue → Except Error Nat) :
    Except Error (List CorePower) :=
  readRawAux info.units.energy_unit rd 0 info.cores

/-- `CpuInfo::read`: a start pass, (a 10 ms sleep,) an end pass, then zip
the two passes into per-entry deltas scaled by `100.0`, keeping the start
sample's package id. -/
def CpuInfo.read (info : CpuInfo) (rd1 rd2 : Nat → MsrValue → Except Error Nat) :
    Except Error CpuPower :=
  match info.read_raw rd1 with
  | Except.error e => Except.error e
  | Except.ok st =>
    match info.read_raw rd2 with
    | Except.error e => Except.error e
    | Except.ok en =>
      Except.ok { cores := List.zipWith (fun a b =>
        { core_power := (b.core_power - a.core_power) * 100
          package_power := (b.package_power - a.package_power) * 100
          package := a.package }) st en }

/-- `u32::max_value()`, the initial value of `last_package` in
`CpuPower::packages`. -/
def U32_MAX : Nat := 4294967295

/-- The loop of `CpuPower::packages`: emit an entry's `package_power`
exactly when its package id differs from `last`, updating `last` on
emission. -/
def packagesAux : Nat → List CorePower → List ℚ
  | _, [] => []
  | last, c :: rest =>
    if c.package ≠ last then c.package_power :: packagesAux c.package rest
    else packagesAux last rest

/-- `CpuPower::packages`: the loop started with `last = u32::MAX`. -/
def CpuPower.packages (p : CpuPower) : List ℚ :=
  packagesAux U32_MAX p.cores

/-- Following the spec's words, tail of the scan: emit when the package id
differs from the immediately preceding entry's package id. -/
def packagesSpecAux : Nat → List CorePower → List ℚ
  | _, [] => []
  | prev, c :: rest =>
    if c.package ≠ prev then c.package_power :: packagesSpecAux c.package rest
    else packagesSpecAux c.package rest

/-- Following the spec's words, for comparison with `CpuPower.packages`:
the first entry always emits, every later entry emits exactly when its
package id differs from the immediately preceding entry's. -/
def packagesSpec : List CorePower → List ℚ
  | [] => []
  | c :: rest => c.package_power :: packagesSpecAux c.package rest

/-! ## Theorems -/

theorem and_shiftLeft_shiftRight (v m k : Nat) :
    (v &&& (m <<< k)) >>> k = (v >>> k) &&& m := by
  apply Nat.eq_of_testBit_eq
  intro i
  simp [Nat.testBit_shiftRight, Nat.testBit_and, Nat.testBit_shiftLeft]

theorem timeExp_eq_div_mod (v : Nat) : timeExp v = v / 2 ^ 16 % 2 ^ 4 := by
  have hm : AMD_TIME_UNIT_MASK = 0xF <<< 16 := by decide
  have h15 : (0xF : Nat) = 2 ^ 4 - 1 := by norm_num
  rw [timeExp, hm, and_shiftLeft_shiftRight, h15, Nat.and_pow_two_sub_one_eq_mod,
    Nat.shiftRight_eq_div_pow]

theorem energyExp_eq_div_mod (v : Nat) : energyExp v = v / 2 ^ 8 % 2 ^ 5 := by
  have hm : AMD_ENERGY_UNIT_MASK = 0x1F <<< 8 := by decide
  have h31 : (0x1F : Nat) = 2 ^ 5 - 1 := by norm_num
  rw [energyExp, hm, and_shiftLeft_shiftRight, h31, Nat.and_pow_two_sub_one_eq_mod,
    Nat.shiftRight_eq_div_pow]

theorem powerExp_eq_mod (v : Nat) : powerExp v = v % 2 ^ 4 := by
  have h15 : AMD_POWER_UNIT_MASK = 2 ^ 4 - 1 := by decide
  rw [powerExp, h15, Nat.and_pow_two_sub_one_eq_mod]

theorem half_pow_eq_zpow (n : Nat) : (1 / 2 : ℚ) ^ n = (2 : ℚ) ^ (-(n : ℤ)) := by
  rw [one_div, inv_pow, ← zpow_natCast (2 : ℚ) n, ← zpow_neg]

/-- C4: the unit decode extracts the time exponent from bits 16–19
(`v / 2^16 % 2^4`), the energy exponent from bits 8–12 (`v / 2^8 % 2^5`)
and the power exponent from bits 0–3 (`v % 2^4`); each unit equals `2`
raised to the negative of its exponent; and the fixed register value
`0x00A2E19` decodes to one fixed triple of scaling factors. -/
theorem decode_bit_fields (v : Nat) :
    timeExp v = v / 2 ^ 16 % 2 ^ 4
    ∧ energyExp v = v / 2 ^ 8 % 2 ^ 5
    ∧ powerExp v = v % 2 ^ 4
    ∧ (decodeUnits v).time_unit = (2 : ℚ) ^ (-(timeExp v : ℤ))
    ∧ (decodeUnits v).energy_unit = (2 : ℚ) ^ (-(energyExp v : ℤ))
    ∧ (decodeUnits v).power_unit = (2 : ℚ) ^ (-(powerExp v : ℤ))
    ∧ decodeUnits 0x00A2E19 =
      { time_unit := (1 / 2 : ℚ) ^ 10
        energy_unit := (1 / 2 : ℚ) ^ 14
        power_unit := (1 / 2 : ℚ) ^ 9 } :=
  ⟨timeExp_eq_div_mod v, energyExp_eq_div_mod v, powerExp_eq_mod v,
    half_pow_eq_zpow _, half_pow_eq_zpow _, half_pow_eq_zpow _, by
      have ht : timeExp 0x00A2E19 = 10 := by decide
      have he : energyExp 0x00A2E19 = 14 := by decide
      have hp : powerExp 0x00A2E19 = 9 := by decide
      simp [decodeUnits, ht, he, hp]⟩

/-- C7: for every raw unit register value, each decoded unit satisfies
`0 < unit ≤ 1`. -/
theorem decoded_units_bounds (v : Nat) :
    (0 < (decodeUnits v).time_unit ∧ (decodeUnits v).time_unit ≤ 1)
    ∧ (0 < (decodeUnits v).energy_unit ∧ (decodeUnits v).energy_unit ≤ 1)
    ∧ (0 < (decodeUnits v).power_unit ∧ (decodeUnits v).power_unit ≤ 1) := by
  refine ⟨⟨?_, ?_⟩, ⟨?_, ?_⟩, ⟨?_, ?_⟩⟩ <;> simp only [decodeUnits] <;>
    first
    | positivity
    | exact pow_le_one₀ (by norm_num) (by norm_num)

/-! ### Topology parse: truncation to the 4-byte buffer (C9, C10) -/

theorem bufferBytes_take4 (content : List Nat) :
    bufferBytes (content.take 4) = bufferBytes content := by
  unfold bufferBytes
  rw [List.take_take, List.length_take]
  have h1 : min 4 4 = 4 := by omega
  have h2 : 4 - min 4 content.length = 4 - content.length := by omega
  rw [h1, h2]

/-- C10: `Core::open` reads at most the first 4 bytes of the topology
content into a zero-initialised buffer, so the parsed package id depends
only on the first 4 bytes of the content; the 5-digit content `"12345"`
is silently truncated and parses to `1234` rather than being rejected. -/
theorem parsePackage_truncates (content : List Nat) :
    Core.parsePackage content = Core.parsePackage (content.take 4)
    ∧ Core.parsePackage [0x31, 0x32, 0x33, 0x34, 0x35] = Except.ok 1234 := by
  constructor
  · unfold Core.parsePackage
    rw [bufferBytes_take4]
  · decide

theorem parseTrimmed_ok_or_invalid (data : List Nat) :
    parseTrimmed data = Except.error Error.InvalidPackage
    ∨ ∃ v, parseTrimmed data = Except.ok v := by
  unfold parseTrimmed
  split
  · rcases h : parseU32 (trimWsBytes (trimEndNul data)) with _ | v <;> simp [h]
  · exact Or.inl rfl

/-- C9 counterexample: for the 5-byte content `"12345"` the code parses the
4-byte read window and yields `1234`, while parsing the content itself as a
trimmed integer — what the claim states — yields `12345`. -/
theorem parsePackage_window_cx :
    Core.parsePackage [0x31, 0x32, 0x33, 0x34, 0x35]
        ≠ specParsePackage [0x31, 0x32, 0x33, 0x34, 0x35]
    ∧ Core.parsePackage [0x31, 0x32, 0x33, 0x34, 0x35] = Except.ok 1234
    ∧ specParsePackage [0x31, 0x32, 0x33, 0x34, 0x35] = Except.ok 12345 :=
  ⟨by decide, by decide, by decide⟩

/-- C9 (amended): `Core::open` parses the 4-byte read buffer — the first
(up to) 4 bytes of the topology content, zero-padded — as an integer after
trimming trailing NUL padding and whitespace, not the whole content; the
content `"2\n\0\0"` parses to package id `2`; and the only parse failure is
`InvalidPackage`. -/
theorem parsePackage_trimmed_window :
    (∀ content, Core.parsePackage content = specParsePackage (bufferBytes content))
    ∧ Core.parsePackage [0x32, 0x0A, 0x00, 0x00] = Except.ok 2
    ∧ (∀ content, Core.parsePackage content ≠ Except.error Error.InvalidPackage →
        ∃ v, Core.parsePackage content = Except.ok v) := by
  refine ⟨fun _ => rfl, by decide, ?_⟩
  intro content h
  rcases parseTrimmed_ok_or_invalid (bufferBytes content) with hc | hc
  · exact absurd hc h
  · exact hc

theorem parsePackage_trimmed_window_witness :
    ∃ v, Core.parsePackage [0x37] = Except.ok v :=
  parsePackage_trimmed_window.2.2 [0x37] (by decide)

/-! ### Parsed package ids are small (needed for the `packages()` scan) -/

theorem digitsToNat_foldl_lt (l : List Nat) (h : l.all isDigitByte = true) :
    ∀ acc, l.foldl (fun a b => a * 10 + (b - 0x30)) acc < (acc + 1) * 10 ^ l.length := by
  induction l with
  | nil =>
    intro acc
    simp
  | cons b rest ih =>
    intro acc
    simp only [List.all_cons, Bool.and_eq_true] at h
    have hb : b - 0x30 ≤ 9 := by
      have hd := h.1
      unfold isDigitByte at hd
      simp only [Bool.and_eq_true, decide_eq_true_eq] at hd
      omega
    have hr := ih h.2 (acc * 10 + (b - 0x30))
    simp only [List.foldl_cons, List.length_cons]
    have h10 : acc * 10 + (b - 0x30) + 1 ≤ (acc + 1) * 10 := by omega
    calc List.foldl (fun a b => a * 10 + (b - 0x30)) (acc * 10 + (b - 0x30)) rest
        < (acc * 10 + (b - 0x30) + 1) * 10 ^ rest.length := hr
      _ ≤ ((acc + 1) * 10) * 10 ^ rest.length := Nat.mul_le_mul_right _ h10
      _ = (acc + 1) * 10 ^ (rest.length + 1) := by ring

theorem digitsToNat_lt_ten_pow (l : List Nat) (h : l.all isDigitByte = true) :
    digitsToNat l < 10 ^ l.length := by
  have hf := digitsToNat_foldl_lt l h 0
  simpa [digitsToNat] using hf

theorem dropWhile_length_le (p : Nat → Bool) (l : List Nat) :
    (l.dropWhile p).length ≤ l.length :=
  List.Sublist.length_le (List.dropWhile_sublist p)

theorem trimEndNul_length_le (l : List Nat) : (trimEndNul l).length ≤ l.length := by
  unfold trimEndNul
  simpa using dropWhile_length_le (fun b => b == 0) l.reverse

theorem trimWsBytes_length_le (l : List Nat) : (trimWsBytes l).length ≤ l.length := by
  unfold trimWsBytes
  have h1 := dropWhile_length_le isWsByte l
  have h2 := dropWhile_length_le isWsByte (l.dropWhile isWsByte).reverse
  simp only [List.length_reverse] at h2 ⊢
  omega

theorem dropSign_length_le (l : List Nat) : (dropSign l).length ≤ l.length := by
  unfold dropSign
  split
  · simp
  · exact Nat.le_refl _

theorem bufferBytes_length (content : List Nat) : (bufferBytes content).length = 4 := by
  simp only [bufferBytes, List.length_append, List.length_take, List.length_replicate]
  omega

theorem parseU32_some_bound (l : List Nat) (v : Nat) (h : parseU32 l = some v) :
    v < 10 ^ l.length := by
  unfold parseU32 at h
  split at h
  case isTrue hc =>
    obtain ⟨hne, hdig, hlt⟩ := hc
    have hd := digitsToNat_lt_ten_pow (dropSign l) hdig
    have hlen := dropSign_length_le l
    have hv : digitsToNat (dropSign l) = v := Option.some.inj h
    have hpow : (10 : Nat) ^ (dropSign l).length ≤ 10 ^ l.length :=
      Nat.pow_le_pow_right (by norm_num) hlen
    omega
  case isFalse => exact absurd h (by simp)

theorem parsePackage_ok_lt (content : List Nat) (v : Nat)
    (h : Core.parsePackage content = Except.ok v) : v < U32_MAX := by
  unfold Core.parsePackage parseTrimmed at h
  split at h
  case isTrue =>
    rcases hp : parseU32 (trimWsBytes (trimEndNul (bufferBytes content))) with _ | w
    · rw [hp] at h
      exact absurd h (by simp)
    · rw [hp] at h
      have hw : w = v := by
        have := Except.ok.inj h
        exact this
      subst hw
      have h1 := parseU32_some_bound _ _ hp
      have h2 : (trimWsBytes (trimEndNul (bufferBytes content))).length ≤ 4 := by
        have ha := trimWsBytes_length_le (trimEndNul (bufferBytes content))
        have hb := trimEndNul_length_le (bufferBytes content)
        have hcℓ := bufferBytes_length content
        omega
      have h3 : (10 : Nat) ^ (trimWsBytes (trimEndNul (bufferBytes content))).length ≤ 10 ^ 4 :=
        Nat.pow_le_pow_right (by norm_num) h2
      unfold U32_MAX
      omega
  case isFalse => exact absurd h (by simp)

/-! ### The per-package scan (C2) -/

theorem packagesAux_eq_specAux (l : List CorePower) :
    ∀ last, packagesAux last l = packagesSpecAux last l := by
  induction l with
  | nil =>
    intro last
    rfl
  | cons c rest ih =>
    intro last
    by_cases h : c.package = last
    · simp [packagesAux, packagesSpecAux, h, ih]
    · simp [packagesAux, packagesSpecAux, h, ih]

/-- C2 counterexample: a snapshot whose single entry carries package id
`4294967295` (`u32::MAX`, the sentinel initial value of `last_package`)
emits nothing, although the claimed scan emits the first entry
unconditionally. -/
theorem packages_sentinel_cx :
    (CpuPower.mk [{ core_power := 1, package_power := 7, package := U32_MAX }]).packages = []
    ∧ packagesSpec [{ core_power := 1, package_power := 7, package := U32_MAX }] = [7] := by
  constructor
  · simp [CpuPower.packages, packagesAux]
  · simp [packagesSpec, packagesSpecAux]

/-- C2 (amended): `packages()` is a single left-to-right scan emitting
`package_power` exactly when the package id differs from the previous
entry's, except that the first entry is compared against the sentinel
`u32::MAX` and so emits only when its package id differs from `4294967295`;
package ids the engine can produce are always below the sentinel (the
topology parse reads at most 4 bytes), so on every snapshot the engine
builds the claimed scan is exact; in particular three entries with package
ids `[0, 0, 1]` yield exactly 2 values. -/
theorem packages_scan :
    (∀ p : CpuPower, (∀ c, p.cores.head? = some c → c.package ≠ U32_MAX) →
      p.packages = packagesSpec p.cores)
    ∧ (∀ e1 e2 e3 : CorePower, e1.package = 0 → e2.package = 0 → e3.package = 1 →
      (CpuPower.mk [e1, e2, e3]).packages.length = 2)
    ∧ (∀ content v, Core.parsePackage content = Except.ok v → v < U32_MAX) := by
  refine ⟨?_, ?_, fun content v h => parsePackage_ok_lt content v h⟩
  · intro p hfirst
    rcases hc : p.cores with _ | ⟨c, rest⟩
    · simp [CpuPower.packages, hc, packagesAux, packagesSpec]
    · have hne := hfirst c (by rw [hc]; rfl)
      unfold CpuPower.packages packagesSpec
      rw [hc]
      simp [packagesAux, hne, packagesAux_eq_specAux]
  · intro e1 e2 e3 h1 h2 h3
    simp [CpuPower.packages, packagesAux, h1, h2, h3, U32_MAX]

theorem packages_scan_witness :
    (CpuPower.mk [{ core_power := 1, package_power := 2, package := 0 },
      { core_power := 3, package_power := 4, package := 0 },
      { core_power := 5, package_power := 6, package := 1 }]).packages.length = 2 :=
  packages_scan.2.1 _ _ _ rfl rfl rfl

/-! ### Engine construction: the enumeration loop (C3) -/

theorem range_map_shift (f : Nat → Core) (i k : Nat) :
    (List.range (k + 1)).map (fun j => f (i + j))
      = f i :: (List.range k).map (fun j => f (i + 1 + j)) := by
  rw [List.range_succ_eq_map]
  simp only [List.map_cons, List.map_map, Nat.add_zero, Function.comp]
  congr 1
  apply List.map_congr_left
  intro a _
  show f (i + Nat.succ a) = f (i + 1 + a)
  congr 1
  omega

theorem collectFrom_ok (op : Nat → Except Error Core) (f : Nat → Core) :
    ∀ (fuel i n : Nat), n ≤ fuel →
      (∀ j, j < n → op (i + j) = Except.ok (f (i + j))) →
      (n < fuel → op (i + n) = Except.error Error.CoreNotFound) →
      collectFrom op i fuel = Except.ok ((List.range n).map (fun j => f (i + j))) := by
  intro fuel
  induction fuel with
  | zero =>
    intro i n hn _ _
    have hz : n = 0 := by omega
    subst hz
    simp [collectFrom]
  | succ m ih =>
    intro i n hn hok hstop
    cases n with
    | zero =>
      have h0 : op i = Except.error Error.CoreNotFound := by
        have hs := hstop (by omega)
        simpa using hs
      simp [collectFrom, h0]
    | succ k =>
      have h1 : op i = Except.ok (f i) := by
        have ho := hok 0 (by omega)
        simpa using ho
      have hrec := ih (i + 1) k (by omega)
        (fun j hj => by
          have ho := hok (j + 1) (by omega)
          have he : i + (j + 1) = i + 1 + j := by omega
          rwa [he] at ho)
        (fun hk => by
          have hs := hstop (by omega)
          have he : i + (k + 1) = i + 1 + k := by omega
          rwa [he] at hs)
      simp only [collectFrom, h1, hrec]
      rw [range_map_shift]

theorem collectFrom_error (op : Nat → Except Error Core) (f : Nat → Core) :
    ∀ (fuel i n : Nat) (e : Error), n < fuel →
      (∀ j, j < n → op (i + j) = Except.ok (f (i + j))) →
      op (i + n) = Except.error e → e ≠ Error.CoreNotFound →
      collectFrom op i fuel = Except.error e := by
  intro fuel
  induction fuel with
  | zero =>
    intro i n e hn
    exact absurd hn (Nat.not_lt_zero n)
  | succ m ih =>
    intro i n e hn hok herr hne
    cases n with
    | zero =>
      have h0 : op i = Except.error e := by simpa using herr
      cases e <;> first
        | exact absurd rfl hne
        | simp [collectFrom, h0]
    | succ k =>
      have h1 : op i = Except.ok (f i) := by
        have ho := hok 0 (by omega)
        simpa using ho
      have hrec := ih (i + 1) k e (by omega)
        (fun j hj => by
          have ho := hok (j + 1) (by omega)
          have he : i + (j + 1) = i + 1 + j := by omega
          rwa [he] at ho)
        (by
          have he : i + (k + 1) = i + 1 + k := by omega
          rwa [he] at herr)
        hne
      simp [collectFrom, h1, hrec]

theorem newCores_of_collect (op : Nat → Except Error Core) (cs : List Core)
    (h : collectFrom op 0 MAX_CPUS = Except.ok cs) :
    CpuInfo.newCores op = if cs = [] then Except.error Error.NoCores else Except.ok cs := by
  unfold CpuInfo.newCores
  rw [h]
  cases cs with
  | nil => simp
  | cons a as => simp

/-- C3: engine construction enumerates cpu ordinals from 0 up to the hard
ceiling `MAX_CPUS = 1024`, opening each.  If the first `n` opens succeed
and ordinal `n` fails with `CoreNotFound`, enumeration ends successfully
with exactly those `n` cores — the result does not depend on `op` past `n`,
so an ordinal past a missing one is never probed — and if `n = 0`
construction fails with `NoCores`.  If ordinal `n` fails with any other
error, construction propagates that error. -/
theorem newCores_enumeration (op : Nat → Except Error Core) (f : Nat → Core) (n : Nat) :
    (n ≤ MAX_CPUS → (∀ j, j < n → op j = Except.ok (f j)) →
      (n < MAX_CPUS → op n = Except.error Error.CoreNotFound) →
      CpuInfo.newCores op =
        if n = 0 then Except.error Error.NoCores else Except.ok ((List.range n).map f))
    ∧ (∀ e, n < MAX_CPUS → (∀ j, j < n → op j = Except.ok (f j)) →
      op n = Except.error e → e ≠ Error.CoreNotFound →
      CpuInfo.newCores op = Except.error e) := by
  constructor
  · intro hn hok hstop
    have hcol := collectFrom_ok op f MAX_CPUS 0 n hn
      (fun j hj => by simpa using hok j hj)
      (fun h => by simpa using hstop h)
    have hmap : (List.range n).map (fun j => f (0 + j)) = (List.range n).map f := by
      apply List.map_congr_left
      intro a _
      simp
    rw [hmap] at hcol
    rw [newCores_of_collect op _ hcol]
    by_cases hz : n = 0
    · subst hz
      simp
    · simp [hz, List.map_eq_nil_iff, List.range_eq_nil]
  · intro e hn hok herr hne
    have hcol := collectFrom_error op f MAX_CPUS 0 n e hn
      (fun j hj => by simpa using hok j hj)
      (by simpa using herr) hne
    unfold CpuInfo.newCores
    rw [hcol]

theorem newCores_enumeration_witness :
    CpuInfo.newCores
        (fun i => if i < 2 then Except.ok (Core.mk 5) else Except.error Error.CoreNotFound)
      = Except.ok [Core.mk 5, Core.mk 5] := by
  have h := (newCores_enumeration
      (fun i => if i < 2 then Except.ok (Core.mk 5) else Except.error Error.CoreNotFound)
      (fun _ => Core.mk 5) 2).1
    (by norm_num [MAX_CPUS])
    (fun j hj => by simp [hj])
    (fun _ => by norm_num)
  simpa [List.range_succ] using h

/-! ### The register file read (C8) -/

theorem u64FromLeBytes_range (n : Nat) :
    ∀ f : Nat → Nat, u64FromLeBytes ((List.range n).map f)
      = Finset.sum (Finset.range n) (fun k => f k * 256 ^ k) := by
  induction n with
  | zero =>
    intro f
    simp [u64FromLeBytes]
  | succ m ih =>
    intro f
    have step : u64FromLeBytes ((List.range (m + 1)).map f)
        = f 0 + 256 * u64FromLeBytes ((List.range m).map (fun j => f (j + 1))) := by
      rw [List.range_succ_eq_map]
      simp only [List.map_cons, List.map_map, u64FromLeBytes]
      rfl
    rw [step, ih (fun j => f (j + 1)), Finset.sum_range_succ', Finset.mul_sum]
    have hterm : ∀ k, 256 * (f (k + 1) * 256 ^ k) = f (k + 1) * 256 ^ (k + 1) := by
      intro k
      ring
    rw [Finset.sum_congr rfl (fun k _ => hterm k)]
    simp [Nat.add_comm]

theorem u64FromLeBytes_lt (l : List Nat) (h : ∀ b ∈ l, b < 256) :
    u64FromLeBytes l < 256 ^ l.length := by
  induction l with
  | nil => simp [u64FromLeBytes]
  | cons b bs ih =>
    have hb : b < 256 := h b (by simp)
    have hr : u64FromLeBytes bs < 256 ^ bs.length := ih (fun x hx => h x (by simp [hx]))
    simp only [u64FromLeBytes, List.length_cons, pow_succ]
    omega

/-- C8: `Core::read` seeks the register file to the absolute offset equal
to the register address and reads exactly 8 bytes interpreted as a
little-endian 64-bit value: the result is `Σ_{k<8} byte(addr+k)·256^k`
regardless of the prior file position, the position afterwards is
`addr + 8`, the register addresses used are the `MsrValue` discriminants,
and when every byte is below 256 the value fits in 64 bits. -/
theorem core_read_le_bytes (s : FileState) (addr : Nat) :
    (Core.readAt s addr).1
        = Finset.sum (Finset.range 8) (fun k => s.data (addr + k) * 256 ^ k)
    ∧ (Core.readAt s addr).2.pos = addr + 8
    ∧ (∀ v : MsrValue, Core.readMsr s v = Core.readAt s v.addr)
    ∧ ((∀ off, s.data off < 256) → (Core.readAt s addr).1 < 2 ^ 64) := by
  refine ⟨?_, rfl, fun v => rfl, ?_⟩
  · show u64FromLeBytes ((List.range 8).map fun k => s.data (addr + k)) = _
    rw [u64FromLeBytes_range]
  · intro hb
    have h := u64FromLeBytes_lt ((List.range 8).map fun k => s.data (addr + k)) ?_
    · have hlen : ((List.range 8).map fun k => s.data (addr + k)).length = 8 := by simp
      rw [hlen] at h
      have h28 : (256 : Nat) ^ 8 = 2 ^ 64 := by norm_num
      show u64FromLeBytes ((List.range 8).map fun k => s.data (addr + k)) < 2 ^ 64
      omega
    · intro x hx
      simp only [List.mem_map] at hx
      obtain ⟨k, _, hk⟩ := hx
      rw [← hk]
      exact hb (addr + k)

theorem core_read_le_bytes_witness :
    (Core.readAt (FileState.mk (fun _ => 7) 3) 100).1 < 2 ^ 64 :=
  (core_read_le_bytes (FileState.mk (fun _ => 7) 3) 100).2.2.2 (fun _ => by norm_num)

/-! ### The two-pass differential sampling (C1, C5, C6) -/

theorem readRawAux_ok_spec (eu : ℚ) (rd : Nat → MsrValue → Except Error Nat) :
    ∀ (cs : List Core) (i : Nat) (out : List CorePower),
      readRawAux eu rd i cs = Except.ok out →
      out.length = cs.length ∧
      ∀ j, j < cs.length → ∃ ce pe c,
        cs[j]? = some c ∧
        rd (i + j) MsrValue.CoreEnergy = Except.ok ce ∧
        rd (i + j) MsrValue.PackageEnergy = Except.ok pe ∧
        out[j]? = some { core_power := (ce : ℚ) * eu, package_power := (pe : ℚ) * eu,
                         package := c.package } := by
  intro cs
  induction cs with
  | nil =>
    intro i out h
    simp only [readRawAux] at h
    have hout : out = [] := (Except.ok.inj h).symm
    subst hout
    exact ⟨rfl, fun j hj => absurd hj (by simp)⟩
  | cons c cs ih =>
    intro i out h
    rw [readRawAux] at h
    cases h1 : rd i MsrValue.CoreEnergy with
    | error e =>
      rw [h1] at h
      exact absurd h (by simp)
    | ok ce =>
      rw [h1] at h
      cases h2 : rd i MsrValue.PackageEnergy with
      | error e =>
        rw [h2] at h
        exact absurd h (by simp)
      | ok pe =>
        rw [h2] at h
        cases h3 : readRawAux eu rd (i + 1) cs with
        | error e =>
          rw [h3] at h
          exact absurd h (by simp)
        | ok rest =>
          rw [h3] at h
          have hout : out
              = { core_power := (ce : ℚ) * eu, package_power := (pe : ℚ) * eu,
                  package := c.package } :: rest := (Except.ok.inj h).symm
          subst hout
          obtain ⟨hlen, hspec⟩ := ih (i + 1) rest h3
          refine ⟨by simp [hlen], ?_⟩
          intro j hj
          cases j with
          | zero =>
            exact ⟨ce, pe, c, by simp, by simpa using h1, by simpa using h2, by simp⟩
          | succ k =>
            have hk : k < cs.length := by simpa using hj
            obtain ⟨ce2, pe2, c2, hg, ha, hb, ho⟩ := hspec k hk
            have he : i + (k + 1) = i + 1 + k := by omega
            refine ⟨ce2, pe2, c2, by simpa using hg, ?_, ?_, by simpa using ho⟩
            · rw [he]
              exact ha
            · rw [he]
              exact hb

theorem read_ok_spec (info : CpuInfo) (rd1 rd2 : Nat → MsrValue → Except Error Nat)
    (p : CpuPower) (h : info.read rd1 rd2 = Except.ok p) :
    p.cores.length = info.cores.length ∧
    ∀ j, j < info.cores.length → ∃ a b c d core,
      info.cores[j]? = some core ∧
      rd1 j MsrValue.CoreEnergy = Except.ok a ∧
      rd1 j MsrValue.PackageEnergy = Except.ok b ∧
      rd2 j MsrValue.CoreEnergy = Except.ok c ∧
      rd2 j MsrValue.PackageEnergy = Except.ok d ∧
      p.cores[j]? = some
        { core_power :=
            ((c : ℚ) * info.units.energy_unit - (a : ℚ) * info.units.energy_unit) * 100
          package_power :=
            ((d : ℚ) * info.units.energy_unit - (b : ℚ) * info.units.energy_unit) * 100
          package := core.package } := by
  rw [CpuInfo.read] at h
  cases hst : info.read_raw rd1 with
  | error e =>
    rw [hst] at h
    exact absurd h (by simp)
  | ok st =>
    rw [hst] at h
    cases hen : info.read_raw rd2 with
    | error e =>
      rw [hen] at h
      exact absurd h (by simp)
    | ok en =>
      rw [hen] at h
      have hp : p = CpuPower.mk (List.zipWith (fun a b =>
          { core_power := (b.core_power - a.core_power) * 100
            package_power := (b.package_power - a.package_power) * 100
            package := a.package }) st en) := (Except.ok.inj h).symm
      subst hp
      obtain ⟨hl1, hs1⟩ := readRawAux_ok_spec info.units.energy_unit rd1 info.cores 0 st hst
      obtain ⟨hl2, hs2⟩ := readRawAux_ok_spec info.units.energy_unit rd2 info.cores 0 en hen
      constructor
      · simp [List.length_zipWith, hl1, hl2]
      · intro j hj
        obtain ⟨a, b, ca, hga, ha1, ha2, hoa⟩ := hs1 j hj
        obtain ⟨c, d, cb, hgb, hb1, hb2, hob⟩ := hs2 j hj
        have hcc : ca = cb := by
          rw [hga] at hgb
          exact Option.some.inj hgb
        subst hcc
        refine ⟨a, b, c, d, ca, hga, by simpa using ha1, by simpa using ha2,
          by simpa using hb1, by simpa using hb2, ?_⟩
        show (List.zipWith _ st en)[j]? = _
        rw [List.getElem?_zipWith]
        rw [hoa, hob]

/-- C5: every successful `read()` returns exactly one Core Power Entry per
register handle, in construction order: the snapshot has the handles'
length and its entries' package ids are positionally the handles' package
ids. -/
theorem read_entry_per_handle (info : CpuInfo) (rd1 rd2 : Nat → MsrValue → Except Error Nat)
    (p : CpuPower) (h : info.read rd1 rd2 = Except.ok p) :
    p.cores.length = info.cores.length
    ∧ p.cores.map CorePower.package = info.cores.map Core.package := by
  obtain ⟨hlen, hspec⟩ := read_ok_spec info rd1 rd2 p h
  refine ⟨hlen, ?_⟩
  apply List.ext_getElem?
  intro j
  by_cases hj : j < info.cores.length
  · obtain ⟨a, b, c, d, core, hg, _, _, _, _, hpj⟩ := hspec j hj
    rw [List.getElem?_map, List.getElem?_map, hg, hpj]
    rfl
  · rw [List.getElem?_map, List.getElem?_map,
      List.getElem?_eq_none (l := p.cores) (by omega),
      List.getElem?_eq_none (l := info.cores) (by omega)]
    rfl

theorem read_entry_per_handle_witness :
    (CpuPower.mk [{ core_power := 6000, package_power := 6000, package := 0 },
        { core_power := 6000, package_power := 6000, package := 1 }]).cores.length
        = (CpuInfo.mk [Core.mk 0, Core.mk 1] (PowerUnits.mk 1 1 1)).cores.length
    ∧ (CpuPower.mk [{ core_power := 6000, package_power := 6000, package := 0 },
        { core_power := 6000, package_power := 6000, package := 1 }]).cores.map CorePower.package
        = (CpuInfo.mk [Core.mk 0, Core.mk 1] (PowerUnits.mk 1 1 1)).cores.map Core.package :=
  read_entry_per_handle (CpuInfo.mk [Core.mk 0, Core.mk 1] (PowerUnits.mk 1 1 1))
    (fun _ _ => Except.ok 100) (fun _ _ => Except.ok 160) _
    (by norm_num [CpuInfo.read, CpuInfo.read_raw, readRawAux])

/-- C1: for a successful `read()`, each output entry equals the pairwise
difference of the end and start raw energy-accumulator values multiplied
by the energy unit and then by `100.0`, independently for core and package
energy, and its package id is the one carried from the start sample — the
handle's package id. -/
theorem read_delta_formula (info : CpuInfo) (rd1 rd2 : Nat → MsrValue → Except Error Nat)
    (p : CpuPower) (j a b c d : Nat) (core : Core)
    (hp : info.read rd1 rd2 = Except.ok p)
    (hcore : info.cores[j]? = some core)
    (h1 : rd1 j MsrValue.CoreEnergy = Except.ok a)
    (h2 : rd1 j MsrValue.PackageEnergy = Except.ok b)
    (h3 : rd2 j MsrValue.CoreEnergy = Except.ok c)
    (h4 : rd2 j MsrValue.PackageEnergy = Except.ok d) :
    p.cores[j]? = some
      { core_power := ((c : ℚ) - (a : ℚ)) * info.units.energy_unit * 100
        package_power := ((d : ℚ) - (b : ℚ)) * info.units.energy_unit * 100
        package := core.package } := by
  obtain ⟨hlen, hspec⟩ := read_ok_spec info rd1 rd2 p hp
  have hj : j < info.cores.length := by
    by_contra hge
    rw [List.getElem?_eq_none (by omega)] at hcore
    exact Option.noConfusion hcore
  obtain ⟨a2, b2, c2, d2, core2, hg, ha1, ha2, hb1, hb2, hpj⟩ := hspec j hj
  have hA : a2 = a := by
    rw [h1] at ha1
    exact (Except.ok.inj ha1).symm
  have hB : b2 = b := by
    rw [h2] at ha2
    exact (Except.ok.inj ha2).symm
  have hC : c2 = c := by
    rw [h3] at hb1
    exact (Except.ok.inj hb1).symm
  have hD : d2 = d := by
    rw [h4] at hb2
    exact (Except.ok.inj hb2).symm
  have hE : core2 = core := by
    rw [hcore] at hg
    exact (Option.some.inj hg).symm
  subst hA hB hC hD hE
  rw [hpj]
  simp only [Option.some.injEq, CorePower.mk.injEq]
  refine ⟨by ring, by ring, trivial⟩

theorem read_delta_formula_witness :
    (CpuPower.mk [{ core_power := 6000, package_power := 6000, package := 0 }]).cores[0]?
      = some { core_power :=
                 ((160 : ℚ) - (100 : ℚ)) * (PowerUnits.mk 1 1 1).energy_unit * 100
               package_power :=
                 ((160 : ℚ) - (100 : ℚ)) * (PowerUnits.mk 1 1 1).energy_unit * 100
               package := (Core.mk 0).package } :=
  read_delta_formula (CpuInfo.mk [Core.mk 0] (PowerUnits.mk 1 1 1))
    (fun _ _ => Except.ok 100) (fun _ _ => Except.ok 160) _ 0 100 100 160 160 (Core.mk 0)
    (by norm_num [CpuInfo.read, CpuInfo.read_raw, readRawAux])
    rfl rfl rfl rfl rfl

/-- C6: within one `read()` call, if the raw core- and package-energy
accumulator values strictly increase between the start and end pass for
every handle, then every `core_power` and `package_power` of the snapshot
is non-negative (the engine's energy unit being a decoded power of 1/2). -/
theorem read_nonneg (info : CpuInfo) (rd1 rd2 : Nat → MsrValue → Except Error Nat)
    (p : CpuPower) (u : Nat)
    (hu : info.units = decodeUnits u)
    (hp : info.read rd1 rd2 = Except.ok p)
    (hmono : ∀ j m a c, rd1 j m = Except.ok a → rd2 j m = Except.ok c → a < c) :
    ∀ entry ∈ p.cores, 0 ≤ entry.core_power ∧ 0 ≤ entry.package_power := by
  intro entry hmem
  obtain ⟨hlen, hspec⟩ := read_ok_spec info rd1 rd2 p hp
  obtain ⟨j, hget⟩ := List.mem_iff_getElem?.1 hmem
  have hj : j < info.cores.length := by
    by_contra hge
    rw [List.getElem?_eq_none (by omega)] at hget
    exact Option.noConfusion hget
  obtain ⟨a, b, c, d, core, hg, ha1, ha2, hb1, hb2, hpj⟩ := hspec j hj
  rw [hget] at hpj
  have hentry := Option.some.inj hpj
  have hac : a < c := hmono j MsrValue.CoreEnergy a c ha1 hb1
  have hbd : b < d := hmono j MsrValue.PackageEnergy b d ha2 hb2
  have heu : 0 ≤ info.units.energy_unit := by
    rw [hu]
    show (0 : ℚ) ≤ (1 / 2 : ℚ) ^ energyExp u
    positivity
  have hacq : (a : ℚ) ≤ (c : ℚ) := by exact_mod_cast hac.le
  have hbdq : (b : ℚ) ≤ (d : ℚ) := by exact_mod_cast hbd.le
  rw [hentry]
  constructor
  · show (0 : ℚ) ≤ ((c : ℚ) * info.units.energy_unit - (a : ℚ) * info.units.energy_unit) * 100
    nlinarith
  · show (0 : ℚ) ≤ ((d : ℚ) * info.units.energy_unit - (b : ℚ) * info.units.energy_unit) * 100
    nlinarith

theorem read_nonneg_witness :
    0 ≤ (CorePower.mk 6000 6000 0).core_power
    ∧ 0 ≤ (CorePower.mk 6000 6000 0).package_power :=
  read_nonneg (CpuInfo.mk [Core.mk 0] (decodeUnits 0))
    (fun _ _ => Except.ok 100) (fun _ _ => Except.ok 160)
    (CpuPower.mk [CorePower.mk 6000 6000 0]) 0 rfl
    (by
      have he : energyExp 0 = 0 := by decide
      norm_num [CpuInfo.read, CpuInfo.read_raw, readRawAux, decodeUnits, he])
    (fun _ _ a c h1 h2 => by
      cases h1
      cases h2
      omega)
    (CorePower.mk 6000 6000 0) (List.mem_singleton.2 rfl)

end RyzenReader
